import Mathlib

/-!
Verification of the statistical core of the immune-disease GWAS pipeline:
the Benjamini-Hochberg FDR corrector (src/code/collect_sig_genes_trans.py),
the significance selector (src/code/collect_sig_genes_trans.py and
src/code/collect_sig_genes_transcis_v2.py), the aggregation abort logic,
and the Wakefield ABF fine-mapper (src/code/finemap_pip.py).

Floating-point values from the Python code are modelled as exact rationals
(ℚ) wherever the code only performs field operations and comparisons, and
as real numbers (ℝ) where transcendental functions (exp, log) enter.
Missing values (NaN in pandas) are modelled as `Option.none`.
-/

namespace GwasCore

/-! ## Benjamini-Hochberg FDR corrector

Embeds `bh_fdr` from src/code/collect_sig_genes_trans.py, lines 8-27.
The input is the p-value column (`pvals`), with `none` standing for a
missing (NaN) value.  The pandas series is index-aligned, so a value is a
pair of its original position and the p-value. -/

/-- Model of `p_non = p[p.notna()]`: the non-missing p-values, each paired with its
original position (the pandas index). -/
def nonMissing (pvals : List (Option ℚ)) : List (ℕ × ℚ) :=
  pvals.enum.filterMap (fun ip => ip.2.map (fun p => (ip.1, p)))

/-- Comparison used by `p_non.sort_values()`: compare by p-value. -/
def bhLe (a b : ℕ × ℚ) : Prop := a.2 ≤ b.2

instance : DecidableRel bhLe := fun a b => inferInstanceAs (Decidable (a.2 ≤ b.2))

instance : IsTotal (ℕ × ℚ) bhLe := ⟨fun a b => le_total a.2 b.2⟩

instance : IsTrans (ℕ × ℚ) bhLe := ⟨fun _ _ _ h1 h2 => le_trans h1 h2⟩

/-- Model of `order = p_non.sort_values().index` together with the sorted values:
the non-missing (position, p) pairs, in ascending p order.  Pandas'
default quicksort is unstable, but tied p-values always receive the same
final q-value (the right-to-left running minimum flattens every tie
block), so the stable insertion sort is observationally equivalent; the
spec itself mandates the stable tie order. -/
def bhSorted (pvals : List (Option ℚ)) : List (ℕ × ℚ) :=
  List.insertionSort bhLe (nonMissing pvals)

/-- Model of `q_raw = p_non.loc[order] * m / ranks` with ranks `1..m`
(`m = p.notna().sum()` is the number of non-missing p-values). -/
def q_raw (pvals : List (Option ℚ)) : List ℚ :=
  (bhSorted pvals).enum.map
    (fun kv => kv.2.2 * ((nonMissing pvals).length : ℚ) / ((kv.1 : ℚ) + 1))

/-- The right-to-left running minimum (lines 22-24): entry `i` of the
result is the minimum of entries `i..` of the input. -/
def suffixMins : List ℚ → List ℚ
  | [] => []
  | x :: xs =>
    match suffixMins xs with
    | [] => [x]
    | y :: ys => min x y :: y :: ys

/-- Model of `q_mon.clip(upper=1.0)`: the monotonicity-enforced q-values, clipped
above at 1 (line 26), still in rank order. -/
def q_final (pvals : List (Option ℚ)) : List ℚ :=
  (suffixMins (q_raw pvals)).map (fun q => min q 1)

/-- Model of `bh_fdr` (lines 8-27): returns the q-values aligned to the input
order.  `q.loc[order] = q_mon...values` scatters the rank-ordered
q-values back to the original positions; positions with a missing p stay
missing, and if `m == 0` everything is missing. -/
def bh_fdr (pvals : List (Option ℚ)) : List (Option ℚ) :=
  if (nonMissing pvals).length = 0 then pvals.map (fun _ => none)
  else
    let assoc := ((bhSorted pvals).map Prod.fst).zip (q_final pvals)
    pvals.enum.map (fun ip =>
      match ip.2 with
      | none => none
      | some _ => assoc.lookup ip.1)

/-! ### Claim C3: the BH known examples -/

theorem bh_eval_first :
    bh_fdr [some (1/1000), some (1/50), some (3/100)] =
        [some (3/1000), some (3/100), some (3/100)] := by
  have h1 : nonMissing [some (1/1000), some (1/50), some (3/100)] =
      [(0, 1/1000), (1, 1/50), (2, 3/100)] := rfl
  have h2 : bhSorted [some (1/1000), some (1/50), some (3/100)] =
      [(0, 1/1000), (1, 1/50), (2, 3/100)] := by
    rw [bhSorted, h1]
    norm_num [List.insertionSort, List.orderedInsert, bhLe]
  have h4 : q_raw [some (1/1000), some (1/50), some (3/100)] =
      [3/1000, 3/100, 3/100] := by
    rw [q_raw, h2, h1]
    norm_num [List.enum, List.enumFrom]
  have h5 : q_final [some (1/1000), some (1/50), some (3/100)] =
      [3/1000, 3/100, 3/100] := by
    rw [q_final, h4]
    norm_num [suffixMins, min_def]
  rw [bh_fdr, if_neg (by rw [h1]; simp)]
  rw [h2, h5]
  simp [List.enum, List.enumFrom, List.lookup]

theorem bh_eval_reversal :
    bh_fdr [some (1/25), some (1/100), some (3/100)] =
        [some (1/25), some (3/100), some (1/25)] := by
  have h1 : nonMissing [some (1/25), some (1/100), some (3/100)] =
      [(0, 1/25), (1, 1/100), (2, 3/100)] := rfl
  have h2 : bhSorted [some (1/25), some (1/100), some (3/100)] =
      [(1, 1/100), (2, 3/100), (0, 1/25)] := by
    rw [bhSorted, h1]
    norm_num [List.insertionSort, List.orderedInsert, bhLe]
  have h4 : q_raw [some (1/25), some (1/100), some (3/100)] =
      [3/100, 9/200, 1/25] := by
    rw [q_raw, h2, h1]
    norm_num [List.enum, List.enumFrom]
  have h5 : q_final [some (1/25), some (1/100), some (3/100)] =
      [3/100, 1/25, 1/25] := by
    rw [q_final, h4]
    norm_num [suffixMins, min_def]
  rw [bh_fdr, if_neg (by rw [h1]; simp)]
  rw [h2, h5]
  simp [List.enum, List.enumFrom, List.lookup]

/-- C3 counterexample: on the reversal input p = [0.04, 0.01, 0.03] the
corrector does NOT return q = [0.04, 0.03, 0.03] as the claim states.
(The rank-2 raw q is 0.03·3/2 = 0.045, and the right-to-left minimum
against the rank-3 value 0.04 gives 0.04 for the variant with p = 0.03,
not 0.03.) -/
theorem bh_fdr_reversal_counterexample :
    bh_fdr [some (1/25), some (1/100), some (3/100)] ≠
      [some (1/25), some (3/100), some (3/100)] := by
  rw [bh_eval_reversal]
  intro h
  have h2 := congrArg (fun l => l[2]?) h
  norm_num at h2

/-- C3 (amended): on p = [0.001, 0.02, 0.03] (m = 3) the BH corrector
returns q = [0.003, 0.03, 0.03], and on the reversal input
p = [0.04, 0.01, 0.03] it returns q = [0.04, 0.03, 0.04]. -/
theorem bh_fdr_known_examples :
    bh_fdr [some (1/1000), some (1/50), some (3/100)] =
        [some (3/1000), some (3/100), some (3/100)] ∧
      bh_fdr [some (1/25), some (1/100), some (3/100)] =
        [some (1/25), some (3/100), some (1/25)] :=
  ⟨bh_eval_first, bh_eval_reversal⟩

/-! ### Claim C4: monotonicity of the rank-ordered q-values -/

theorem suffixMins_sorted : ∀ l : List ℚ, List.Sorted (· ≤ ·) (suffixMins l)
  | [] => List.sorted_nil
  | x :: xs => by
    have ih := suffixMins_sorted xs
    unfold suffixMins
    cases h : suffixMins xs with
    | nil => simp
    | cons y ys =>
      rw [h] at ih
      rcases List.sorted_cons.1 ih with ⟨hy, hys⟩
      refine List.sorted_cons.2 ⟨?_, ih⟩
      intro b hb
      rcases List.mem_cons.1 hb with rfl | hb
      · exact min_le_right _ _
      · exact le_trans (min_le_right _ _) (hy b hb)

/-- C4: for every vector of (possibly missing) p-values, the q-values
after the right-to-left running-minimum step (and the clip at 1) are
monotone non-decreasing in rank order, i.e. non-decreasing when the
positions are ordered by ascending p. -/
theorem bh_fdr_monotone (pvals : List (Option ℚ)) :
    List.Sorted (· ≤ ·) (q_final pvals) := by
  unfold q_final
  exact List.Pairwise.map _ (fun a b h => min_le_min h le_rfl)
    (suffixMins_sorted (q_raw pvals))

/-! ### Claim C8: shape of the corrector output -/

/-- C8: for every input sequence of (possibly missing) p-values, the BH
corrector returns a sequence of the same length in the same order; every
position whose p-value is missing receives a missing q-value; and if no
p-value is non-missing (m = 0) then every output position is missing. -/
theorem bh_fdr_shape (pvals : List (Option ℚ)) :
    (bh_fdr pvals).length = pvals.length ∧
      (∀ i : ℕ, pvals[i]? = some none → (bh_fdr pvals)[i]? = some none) ∧
      (nonMissing pvals = [] → bh_fdr pvals = pvals.map fun _ => none) := by
  refine ⟨?_, ?_, ?_⟩
  · unfold bh_fdr
    split
    · simp
    · simp
  · intro i hi
    unfold bh_fdr
    split
    · simp only [List.getElem?_map, hi, Option.map_some]
      rfl
    · simp only [List.getElem?_map, List.getElem?_enum, hi, Option.map_some]
      rfl
  · intro h
    unfold bh_fdr
    rw [if_pos (by rw [h]; rfl)]

/-- C8 witness: on the concrete input [none, some 1/2] the corrector
output has length 2, keeps position 0 missing, and on the all-missing
input [none, none] every output is missing. -/
theorem bh_fdr_shape_witness :
    (bh_fdr [none, some (1/2)]).length = 2 ∧
      (bh_fdr [none, some (1/2)])[0]? = some none ∧
      bh_fdr [none, none] = [none, none] := by
  refine ⟨(bh_fdr_shape [none, some (1/2)]).1, ?_, ?_⟩
  · exact (bh_fdr_shape [none, some (1/2)]).2.1 0 rfl
  · exact (bh_fdr_shape [none, none]).2.2 rfl

/-! ### Claim C10: the correction never decreases a p-value -/

theorem suffixMins_cons (x : ℚ) (xs : List ℚ) :
    suffixMins (x :: xs) =
      match suffixMins xs with
      | [] => [x]
      | y :: ys => min x y :: y :: ys := rfl

theorem suffixMins_length : ∀ l : List ℚ, (suffixMins l).length = l.length
  | [] => rfl
  | x :: xs => by
    have ih := suffixMins_length xs
    rw [suffixMins_cons]
    cases h : suffixMins xs with
    | nil =>
      rw [h] at ih
      simp only [List.length_nil] at ih
      simp [← ih]
    | cons y ys =>
      rw [h] at ih
      simp only [List.length_cons] at ih ⊢
      omega

theorem le_suffixMins_getElem :
    ∀ (l : List ℚ) (b : ℚ) (k : ℕ) (hk : k < (suffixMins l).length),
      (∀ (j : ℕ) (hj : j < l.length), k ≤ j → b ≤ l[j]) →
      b ≤ (suffixMins l)[k]
  | [], _, k, hk, _ => by simp [suffixMins] at hk
  | x :: xs, b, k, hk, hall => by
    cases h : suffixMins xs with
    | nil =>
      have hk1 : k = 0 := by
        have hone : (suffixMins (x :: xs)).length = 1 := by
          rw [suffixMins_cons, h]
          rfl
        omega
      subst hk1
      have hx : b ≤ x := hall 0 (by simp) (le_refl 0)
      simp only [suffixMins_cons, h]
      simpa using hx
    | cons y ys =>
      simp only [suffixMins_cons, h]
      cases k with
      | zero =>
        have hx : b ≤ x := hall 0 (by simp) (le_refl 0)
        have hk0 : 0 < (suffixMins xs).length := by rw [h]; simp
        have hy : b ≤ (suffixMins xs)[0] :=
          le_suffixMins_getElem xs b 0 hk0
            (fun j hj _ => by
              have := hall (j + 1) (by simpa using Nat.succ_lt_succ hj)
                (Nat.zero_le _)
              simpa using this)
        simp only [h] at hy
        simpa using le_min hx hy
      | succ k' =>
        have hk' : k' < (suffixMins xs).length := by
          have hlen : (suffixMins (x :: xs)).length = (suffixMins xs).length + 1 := by
            rw [suffixMins_cons, h]
            simp
          omega
        have hnext : b ≤ (suffixMins xs)[k'] :=
          le_suffixMins_getElem xs b k' hk'
            (fun j hj hkj => by
              have := hall (j + 1) (by simpa using Nat.succ_lt_succ hj)
                (Nat.succ_le_succ hkj)
              simpa using this)
        simp only [h] at hnext
        simpa using hnext

theorem filterMap_fst_sublist (l : List (ℕ × Option ℚ)) :
    ((l.filterMap (fun ip => ip.2.map (fun p => (ip.1, p)))).map Prod.fst).Sublist
      (l.map Prod.fst) := by
  induction l with
  | nil => simp
  | cons a l ih =>
    cases h : a.2 with
    | none => simpa [List.filterMap_cons, h] using ih.cons a.1
    | some p => simpa [List.filterMap_cons, h] using ih.cons₂ a.1

theorem nonMissing_keys_nodup (pvals : List (Option ℚ)) :
    ((nonMissing pvals).map Prod.fst).Nodup := by
  have hsub := filterMap_fst_sublist pvals.enum
  have : (pvals.enum.map Prod.fst).Nodup := by
    rw [List.enum_map_fst]
    exact List.nodup_range _
  exact hsub.nodup this

theorem lookup_zip_getElem :
    ∀ (keys : List ℕ) (vals : List ℚ), keys.Nodup →
      ∀ (k : ℕ) (h1 : k < keys.length) (h2 : k < vals.length),
        (keys.zip vals).lookup keys[k] = some vals[k]
  | [], _, _, k, h1, _ => by simp at h1
  | _ :: _, [], _, k, _, h2 => by simp at h2
  | a :: ks, v :: vs, hnd, 0, h1, h2 => by simp [List.lookup]
  | a :: ks, v :: vs, hnd, k + 1, h1, h2 => by
    have h1' : k < ks.length := Nat.lt_of_succ_lt_succ h1
    have h2' : k < vs.length := Nat.lt_of_succ_lt_succ h2
    have hne : a ≠ ks[k] := by
      intro hcontra
      exact (List.nodup_cons.1 hnd).1 (hcontra ▸ List.getElem_mem h1')
    have hbeq : (ks[k] == a) = false := by
      simp [beq_iff_eq]
      exact fun hc => hne hc.symm
    simp only [List.getElem_cons_succ, List.zip_cons_cons, List.lookup, hbeq]
    exact lookup_zip_getElem ks vs (List.nodup_cons.1 hnd).2 k h1' h2'

theorem bhSorted_length (pvals : List (Option ℚ)) :
    (bhSorted pvals).length = (nonMissing pvals).length :=
  (List.perm_insertionSort bhLe (nonMissing pvals)).length_eq

theorem q_raw_length (pvals : List (Option ℚ)) :
    (q_raw pvals).length = (bhSorted pvals).length := by
  simp [q_raw]

theorem q_final_length (pvals : List (Option ℚ)) :
    (q_final pvals).length = (bhSorted pvals).length := by
  simp [q_final, suffixMins_length, q_raw_length]

theorem q_raw_getElem (pvals : List (Option ℚ)) (j : ℕ)
    (hj : j < (q_raw pvals).length) (hjS : j < (bhSorted pvals).length) :
    (q_raw pvals)[j] =
      ((bhSorted pvals)[j]).2 *
        ((nonMissing pvals).length : ℚ) / ((j : ℚ) + 1) := by
  simp [q_raw]

/-- C10: for every input vector whose non-missing p-values lie in (0, 1],
the BH q-value returned at each non-missing position is greater than or
equal to that position's p-value: the correction never decreases a
p-value. -/
theorem bh_fdr_ge_p (pvals : List (Option ℚ))
    (hrange : ∀ pq ∈ nonMissing pvals, 0 < pq.2 ∧ pq.2 ≤ 1)
    (i : ℕ) (p : ℚ) (hi : pvals[i]? = some (some p)) :
    ∃ q, (bh_fdr pvals)[i]? = some (some q) ∧ p ≤ q := by
  classical
  -- (i, p) is one of the non-missing entries
  have hmem : (i, p) ∈ nonMissing pvals := by
    unfold nonMissing
    rw [List.mem_filterMap]
    refine ⟨(i, some p), ?_, rfl⟩
    rw [List.mk_mem_enum_iff_getElem?, hi]
  have hne : (nonMissing pvals).length ≠ 0 :=
    fun h0 => by simp [List.length_eq_zero.1 h0] at hmem
  -- locate (i, p) in the sorted list
  have hmemS : (i, p) ∈ bhSorted pvals :=
    (List.perm_insertionSort bhLe (nonMissing pvals)).mem_iff.2 hmem
  obtain ⟨k, hk, hgetk⟩ := List.mem_iff_getElem.1 hmemS
  have hsorted : List.Sorted bhLe (bhSorted pvals) :=
    List.sorted_insertionSort bhLe (nonMissing pvals)
  -- every rank from k on has raw q at least p
  have hbound : ∀ (j : ℕ) (hj : j < (q_raw pvals).length), k ≤ j →
      p ≤ (q_raw pvals)[j] := by
    intro j hj hkj
    have hjS : j < (bhSorted pvals).length := by
      rw [← q_raw_length pvals]; exact hj
    have hjq : (bhSorted pvals)[j] ∈ nonMissing pvals :=
      (List.perm_insertionSort bhLe (nonMissing pvals)).mem_iff.1
        (List.getElem_mem hjS)
    obtain ⟨hpj_pos, hpj_le1⟩ := hrange _ hjq
    have hple : p ≤ ((bhSorted pvals)[j]).2 := by
      rcases Nat.lt_or_ge k j with hlt | hge
      · have h2 := (List.pairwise_iff_getElem.1 hsorted) k j hk hjS hlt
        rw [hgetk] at h2
        exact h2
      · have hkj' : j = k := le_antisymm hge hkj
        subst hkj'
        simp [hgetk]
    have hrank : (j : ℚ) + 1 ≤ ((nonMissing pvals).length : ℚ) := by
      have hnat : j + 1 ≤ (nonMissing pvals).length := by
        rw [← bhSorted_length pvals]; omega
      exact_mod_cast hnat
    have hstep : ((bhSorted pvals)[j]).2 ≤
        ((bhSorted pvals)[j]).2 * ((nonMissing pvals).length : ℚ) /
          ((j : ℚ) + 1) := by
      rw [le_div_iff₀ (by positivity)]
      exact mul_le_mul_of_nonneg_left hrank (le_of_lt hpj_pos)
    rw [q_raw_getElem pvals j hj hjS]
    exact le_trans hple hstep
  -- hence the final q at rank k is at least p
  have hkq : k < (q_final pvals).length := by
    rw [q_final_length pvals]; exact hk
  have hkraw : k < (suffixMins (q_raw pvals)).length := by
    rw [suffixMins_length, q_raw_length pvals]; exact hk
  have hfin : p ≤ (q_final pvals)[k] := by
    have hs : p ≤ (suffixMins (q_raw pvals))[k] :=
      le_suffixMins_getElem (q_raw pvals) p k hkraw hbound
    have hp1 : p ≤ 1 := (hrange _ hmem).2
    simp only [q_final, List.getElem_map]
    exact le_min hs hp1
  -- the scatter step looks the final q up by original position
  refine ⟨(q_final pvals)[k], ?_, hfin⟩
  unfold bh_fdr
  rw [if_neg hne]
  simp only [List.getElem?_map, List.getElem?_enum, hi, Option.map_some]
  have hklen : k < ((bhSorted pvals).map Prod.fst).length := by
    simpa using hk
  have hkey : ((bhSorted pvals).map Prod.fst)[k] = i := by
    simp [hgetk]
  have hnd : ((bhSorted pvals).map Prod.fst).Nodup :=
    (((List.perm_insertionSort bhLe (nonMissing pvals)).map Prod.fst).nodup_iff).2
      (nonMissing_keys_nodup pvals)
  have hlook := lookup_zip_getElem ((bhSorted pvals).map Prod.fst)
    (q_final pvals) hnd k hklen (by rw [q_final_length pvals]; exact hk)
  rw [hkey] at hlook
  exact congrArg some hlook

/-- C10 witness: at the concrete input [some 1/2, some 1/4], position 0
(p = 1/2) receives a q-value at least 1/2. -/
theorem bh_fdr_ge_p_witness :
    (∀ pq ∈ nonMissing [some (1/2 : ℚ), some (1/4)], 0 < pq.2 ∧ pq.2 ≤ 1) ∧
      ∃ q, (bh_fdr [some (1/2 : ℚ), some (1/4)])[0]? = some (some q) ∧
        1/2 ≤ q := by
  have hr : ∀ pq ∈ nonMissing [some (1/2 : ℚ), some (1/4)],
      0 < pq.2 ∧ pq.2 ≤ 1 := by
    intro pq hpq
    simp [nonMissing, List.enum, List.enumFrom] at hpq
    rcases hpq with rfl | rfl <;> norm_num
  exact ⟨hr, bh_fdr_ge_p [some (1/2), some (1/4)] hr 0 (1/2) rfl⟩

/-! ## Wakefield ABF fine-mapper

Embeds `main` of src/code/finemap_pip.py.  A parsed input row (after
`pd.to_numeric(..., errors="coerce")` on the numeric columns, line 32-33)
has every numeric field as an optional rational; `none` is a NaN. -/

/-- One row of the PLINK `.assoc.linear` table after numeric coercion. -/
structure RawRow where
  snp : Option String
  chr : Option ℚ
  bp : Option ℚ
  a1 : Option String
  test : String
  nmiss : Option ℚ
  beta : Option ℚ
  stat : Option ℚ
  p : Option ℚ
deriving DecidableEq

/-- A variant retained by the fine-mapper: all of SNP, CHR, BP, A1, BETA,
STAT, P present (line 36); NMISS is not in the dropna list and may be
missing. -/
structure Variant where
  snp : String
  chr : ℚ
  bp : ℚ
  a1 : String
  nmiss : Option ℚ
  beta : ℚ
  stat : ℚ
  p : ℚ
deriving DecidableEq

/-- Per-row retention (lines 36-42): drop rows with a missing required
field, drop `STAT == 0`, and keep only `SE > 0` where `SE = |BETA|/|STAT|`
(line 40).  In exact arithmetic the `replace([inf, -inf], nan)` and the
`dropna(subset=["SE"])` are vacuous once `STAT ≠ 0`, so the surviving
conditions are `STAT ≠ 0` and `|BETA|/|STAT| > 0`. -/
def retainRow (r : RawRow) : Option Variant :=
  match r.snp, r.chr, r.bp, r.a1, r.beta, r.stat, r.p with
  | some snp, some chr, some bp, some a1, some beta, some stat, some p =>
    if stat ≠ 0 ∧ 0 < |beta| / |stat| then
      some ⟨snp, chr, bp, a1, r.nmiss, beta, stat, p⟩
    else none
  | _, _, _, _, _, _, _ => none

/-- Lines 28-42: keep `TEST == "ADD"` rows, then apply `retainRow`. -/
def retained (rows : List RawRow) : List Variant :=
  (rows.filter (fun r => r.test = "ADD")).filterMap retainRow

/-- Standard error `SE = |BETA/STAT|` computed as `BETA.abs() / STAT.abs()` (line 40). -/
def se (v : Variant) : ℚ := |v.beta| / |v.stat|

/-- Z-score `Z = BETA / SE` (line 45). -/
def zscore (v : Variant) : ℚ := v.beta / se v

/-- Wakefield log ABF (lines 47-53):
`W = prior_sd**2`, `V = SE**2`, `r = W/V`,
`logabf = -0.5*log1p(r) + (z*z*r)/(2.0*(1.0+r))`
(`np.log1p(r)` is `log(1 + r)`). -/
noncomputable def shrinkRatio (priorSd : ℚ) (v : Variant) : ℚ :=
  priorSd ^ 2 / se v ^ 2

noncomputable def logABF (priorSd : ℚ) (v : Variant) : ℝ :=
  -0.5 * Real.log (1 + (shrinkRatio priorSd v : ℝ)) +
    ((zscore v : ℝ) * (zscore v : ℝ) * (shrinkRatio priorSd v : ℝ)) /
      (2 * (1 + (shrinkRatio priorSd v : ℝ)))

/-- Model of `logsumexp` (lines 6-10).  `np.nanmax` of an empty vector is NaN and
the function then returns NaN; the reals cannot represent NaN, so the
empty case returns the junk value 0.  Every claim about PIPs assumes at
least one retained variant, and then the maximum exists and the value is
the code's `m + log(nansum(exp(a - m)))`. -/
noncomputable def logsumexp (a : List ℝ) : ℝ :=
  match a.max? with
  | none => 0
  | some m => m + Real.log ((a.map (fun x => Real.exp (x - m))).sum)

/-- Model of `pip = np.exp(logabf - lse)` (lines 56-57), for one variant relative
to the retained set `vs` it belongs to. -/
noncomputable def pipVal (priorSd : ℚ) (vs : List Variant) (v : Variant) : ℝ :=
  Real.exp (logABF priorSd v - logsumexp (vs.map (logABF priorSd)))

/-- The PIP column: `df["PIP"] = np.exp(logabf - lse)` (lines 56-58). -/
noncomputable def pipList (priorSd : ℚ) (vs : List Variant) : List ℝ :=
  vs.map (pipVal priorSd vs)

/-! ### Claim C1: PIPs sum to one -/

theorem sum_exp_sub_logsumexp (l : List ℝ) (hne : l ≠ []) :
    (l.map (fun x => Real.exp (x - logsumexp l))).sum = 1 := by
  cases hmax : l.max? with
  | none => exact absurd (List.max?_eq_none_iff.1 hmax) hne
  | some M =>
    have hS : 0 < (l.map (fun x => Real.exp (x - M))).sum := by
      apply List.sum_pos
      · intro x hx
        obtain ⟨y, _, rfl⟩ := List.mem_map.1 hx
        exact Real.exp_pos _
      · simpa using hne
    have hlse : logsumexp l =
        M + Real.log ((l.map (fun x => Real.exp (x - M))).sum) := by
      unfold logsumexp
      rw [hmax]
    have hfun : ∀ x : ℝ, Real.exp (x - logsumexp l) =
        Real.exp (x - M) * ((l.map (fun x => Real.exp (x - M))).sum)⁻¹ := by
      intro x
      rw [hlse, sub_add_eq_sub_sub, Real.exp_sub, Real.exp_log hS,
        div_eq_mul_inv]
    calc (l.map (fun x => Real.exp (x - logsumexp l))).sum
        = (l.map (fun x => Real.exp (x - M) *
            ((l.map (fun x => Real.exp (x - M))).sum)⁻¹)).sum := by
          simp only [hfun]
      _ = (l.map (fun x => Real.exp (x - M))).sum *
            ((l.map (fun x => Real.exp (x - M))).sum)⁻¹ :=
          List.sum_map_mul_right _ _ _
      _ = 1 := mul_inv_cancel₀ (ne_of_gt hS)

theorem pipList_sum (priorSd : ℚ) (vs : List Variant) (hne : vs ≠ []) :
    (pipList priorSd vs).sum = 1 := by
  have h := sum_exp_sub_logsumexp (vs.map (logABF priorSd)) (by simpa using hne)
  rw [List.map_map] at h
  simpa [pipList, pipVal, Function.comp] using h

/-- C1: for every fine-mapping input with at least one retained variant
(all log Bayes factors are finite real numbers in this model), the PIP
values computed by normalizing logABF via log-sum-exp sum to 1.0 within
1e-9 tolerance (in exact real arithmetic they sum to exactly 1). -/
theorem pip_sum_within_tol (priorSd : ℚ) (rows : List RawRow)
    (h : retained rows ≠ []) :
    |(pipList priorSd (retained rows)).sum - 1| ≤ 1 / 1000000000 := by
  rw [pipList_sum priorSd (retained rows) h]
  norm_num

/-- C1 witness: a single-row input with STAT = 1, BETA = 1 is retained,
and its PIP sums lie within tolerance of 1. -/
theorem pip_sum_within_tol_witness :
    retained [⟨some "rs1", some 1, some 100, some "A", "ADD", some 50,
        some 1, some 1, some (1/100)⟩] ≠ [] ∧
      |(pipList 2 (retained [⟨some "rs1", some 1, some 100, some "A", "ADD",
          some 50, some 1, some 1, some (1/100)⟩])).sum - 1| ≤
        1 / 1000000000 := by
  have hne : retained [(⟨some "rs1", some 1, some 100, some "A", "ADD",
      some 50, some 1, some 1, some (1/100)⟩ : RawRow)] ≠ [] := by
    norm_num [retained, retainRow, List.filter]
    simp
  exact ⟨hne, pip_sum_within_tol 2 _ hne⟩

/-! ### Claim C5: the log Bayes factor formula -/

/-- Definition following the spec's words (section 4.4 of spec.md):
SE = |effect size / test statistic|, Z = effect size / SE,
W = prior_sd², V = SE², shrinkage ratio r = W / V,
logABF = −0.5·log(1 + r) + (Z²·r) / (2·(1 + r)). -/
noncomputable def logABF_spec (priorSd : ℚ) (v : Variant) : ℝ :=
  -(1/2 : ℝ) *
      Real.log (1 + ((priorSd ^ 2 / |v.beta / v.stat| ^ 2 : ℚ) : ℝ)) +
    (((v.beta / |v.beta / v.stat| : ℚ) : ℝ) ^ 2 *
        ((priorSd ^ 2 / |v.beta / v.stat| ^ 2 : ℚ) : ℝ)) /
      (2 * (1 + ((priorSd ^ 2 / |v.beta / v.stat| ^ 2 : ℚ) : ℝ)))

/-- C5: for every variant retained by the fine-mapper, with
SE = |effect size / test statistic|, Z = effect size / SE, W = prior_sd²,
V = SE², and r = W / V, the computed log Bayes factor equals
−0.5·log(1 + r) + (Z²·r) / (2·(1 + r)). -/
theorem logABF_matches_spec (priorSd : ℚ) (rows : List RawRow)
    (v : Variant) (h : v ∈ retained rows) :
    logABF priorSd v = logABF_spec priorSd v := by
  unfold logABF logABF_spec shrinkRatio zscore se
  rw [abs_div]
  push_cast
  ring

/-- C5 witness: the single retained variant of a concrete input satisfies
the spec formula. -/
theorem logABF_matches_spec_witness :
    ((⟨"rs1", 1, 100, "A", some 50, 1, 1, 1/100⟩ : Variant) ∈
        retained [⟨some "rs1", some 1, some 100, some "A", "ADD", some 50,
          some 1, some 1, some (1/100)⟩]) ∧
      logABF 2 ⟨"rs1", 1, 100, "A", some 50, 1, 1, 1/100⟩ =
        logABF_spec 2 ⟨"rs1", 1, 100, "A", some 50, 1, 1, 1/100⟩ := by
  have hmem : (⟨"rs1", 1, 100, "A", some 50, 1, 1, 1/100⟩ : Variant) ∈
      retained [⟨some "rs1", some 1, some 100, some "A", "ADD", some 50,
        some 1, some 1, some (1/100)⟩] := by
    norm_num [retained, retainRow, List.filter]
  exact ⟨hmem,
    logABF_matches_spec 2 [⟨some "rs1", some 1, some 100, some "A", "ADD",
      some 50, some 1, some 1, some (1/100)⟩] _ hmem⟩

/-! ### Claim C6: exclusion of zero-statistic / bad-SE variants -/

/-- Line 61: `df = df.sort_values("PIP", ascending=False)` — the rows of
the fine-mapping output table: the retained variants sorted by descending
PIP.  (Pandas' unstable default sort only permutes tied PIPs, which no
claim depends on; the spec mandates ties in original order, which the
stable insertion sort provides.) -/
noncomputable def sortByPipDesc (priorSd : ℚ) (vs : List Variant) :
    List Variant :=
  List.insertionSort (fun a b => pipVal priorSd vs b ≤ pipVal priorSd vs a) vs

theorem mem_sortByPipDesc {priorSd : ℚ} {vs : List Variant} {v : Variant} :
    v ∈ sortByPipDesc priorSd vs ↔ v ∈ vs :=
  (List.perm_insertionSort _ vs).mem_iff

theorem retainRow_props {r : RawRow} {v : Variant}
    (h : retainRow r = some v) : v.stat ≠ 0 ∧ 0 < se v := by
  unfold retainRow at h
  split at h
  · split_ifs at h with hcond
    injection h with h
    subst h
    exact ⟨hcond.1, hcond.2⟩
  · exact absurd h (by simp)

theorem retained_props {rows : List RawRow} {v : Variant}
    (h : v ∈ retained rows) : v.stat ≠ 0 ∧ 0 < se v := by
  unfold retained at h
  obtain ⟨r, _, hr⟩ := List.mem_filterMap.1 h
  exact retainRow_props hr

/-- C6: a variant whose test statistic is exactly zero, or whose derived
standard error SE = |effect size / test statistic| is ≤ 0, never appears
in any row of the fine-mapping output: every output row has STAT ≠ 0 and
SE > 0, so the divisions defining SE and Z are only evaluated on such
variants.  (Non-finite SE values cannot arise in exact arithmetic once
STAT ≠ 0; the code's inf-replacement models that path.) -/
theorem finemap_output_excludes (priorSd : ℚ) (rows : List RawRow)
    (v : Variant) (h : v ∈ sortByPipDesc priorSd (retained rows)) :
    v.stat ≠ 0 ∧ 0 < se v :=
  retained_props (mem_sortByPipDesc.1 h)

/-- C6 witness: the retained variant of a concrete input appears in the
output and indeed has STAT ≠ 0 and SE > 0. -/
theorem finemap_output_excludes_witness :
    ((⟨"rs2", 2, 200, "C", some 40, 1, 2, 1/50⟩ : Variant) ∈
        sortByPipDesc 3 (retained [⟨some "rs2", some 2, some 200, some "C",
          "ADD", some 40, some 1, some 2, some (1/50)⟩])) ∧
      (⟨"rs2", 2, 200, "C", some 40, 1, 2, 1/50⟩ : Variant).stat ≠ 0 ∧
      0 < se ⟨"rs2", 2, 200, "C", some 40, 1, 2, 1/50⟩ := by
  have hmem : (⟨"rs2", 2, 200, "C", some 40, 1, 2, 1/50⟩ : Variant) ∈
      retained [⟨some "rs2", some 2, some 200, some "C", "ADD", some 40,
        some 1, some 2, some (1/50)⟩] := by
    norm_num [retained, retainRow, List.filter]
  exact ⟨mem_sortByPipDesc.2 hmem,
    finemap_output_excludes 3 [⟨some "rs2", some 2, some 200, some "C",
      "ADD", some 40, some 1, some 2, some (1/50)⟩] _
      (mem_sortByPipDesc.2 hmem)⟩

/-! ### Claim C2: credible set coverage and minimality -/

/-- Model of `df["CUM_PIP"] = df["PIP"].cumsum()` (line 62). -/
noncomputable def cumsum : List ℝ → List ℝ
  | [] => []
  | x :: xs => x :: (cumsum xs).map (fun y => x + y)

open Classical in
/-- Model of `np.searchsorted(a, v, side="left")` (line 73) on the ascending
CUM_PIP array: the number of leading entries strictly below `v`, i.e. the
first index whose entry is ≥ `v` (the binary search and this count agree
because CUM_PIP is sorted ascending). -/
noncomputable def searchsortedLeft (a : List ℝ) (v : ℝ) : ℕ :=
  (a.takeWhile (fun x => decide (x < v))).length

/-- Lines 70-74: `cred = df[df["CUM_PIP"] <= credible]`; then, if
`len(df) > 0` and (`cred` is empty or its largest CUM_PIP is below the
threshold), replace it by `df.iloc[:k+1]` with
`k = np.searchsorted(df["CUM_PIP"].values, credible, side="left")`.
Python's lazy `or` is rendered through `max?`: the filtered frame is
empty exactly when the maximum of its CUM_PIP column does not exist. -/
noncomputable def credibleSet (priorSd : ℚ) (c : ℝ) (vs : List Variant) :
    List Variant :=
  let s := sortByPipDesc priorSd vs
  let cums := cumsum (s.map (pipVal priorSd vs))
  let credPairs := (s.zip cums).filter (fun rc => decide (rc.2 ≤ c))
  if s.length = 0 then credPairs.map Prod.fst
  else
    ((credPairs.map Prod.snd).max?).elim
      (s.take (searchsortedLeft cums c + 1))
      (fun M =>
        if M < c then s.take (searchsortedLeft cums c + 1)
        else credPairs.map Prod.fst)

theorem cumsum_length : ∀ l : List ℝ, (cumsum l).length = l.length
  | [] => rfl
  | x :: xs => by
    simp [cumsum, cumsum_length xs]

theorem cumsum_getElem? :
    ∀ (l : List ℝ) (i : ℕ), i < l.length →
      (cumsum l)[i]? = some ((l.take (i + 1)).sum)
  | x :: xs, 0, h => by simp [cumsum]
  | x :: xs, i + 1, h => by
    have h' : i < xs.length := by simpa using h
    simp only [cumsum, List.getElem?_cons_succ, List.getElem?_map,
      cumsum_getElem? xs i h']
    simp [List.sum_cons]

theorem cumsum_getElem (l : List ℝ) (i : ℕ) (h : i < (cumsum l).length) :
    (cumsum l)[i] = (l.take (i + 1)).sum := by
  have h2 : i < l.length := by rw [← cumsum_length l]; exact h
  have h3 := cumsum_getElem? l i h2
  rw [List.getElem?_eq_getElem h] at h3
  exact Option.some.inj h3

theorem sum_take_lt (l : List ℝ) (hpos : ∀ x ∈ l, 0 < x) :
    ∀ j : ℕ, j ≤ l.length → ∀ i : ℕ, i < j →
      (l.take i).sum < (l.take j).sum := by
  intro j
  induction j with
  | zero => intro _ i hi; omega
  | succ j ih =>
    intro hj i hi
    have hjlen : j < l.length := hj
    have hstep : (l.take (j + 1)).sum = (l.take j).sum + l[j] :=
      List.sum_take_succ l j hjlen
    have hposj : 0 < l[j] := hpos _ (List.getElem_mem hjlen)
    rcases Nat.lt_or_ge i j with hij | hij
    · have := ih (le_of_lt hjlen) i hij
      rw [hstep]
      linarith
    · have hieq : i = j := le_antisymm (Nat.lt_succ_iff.1 hi) hij
      subst hieq
      rw [hstep]
      linarith

theorem sum_take_le (l : List ℝ) (hpos : ∀ x ∈ l, 0 < x)
    (i j : ℕ) (hij : i ≤ j) (hj : j ≤ l.length) :
    (l.take i).sum ≤ (l.take j).sum := by
  rcases Nat.lt_or_ge i j with hlt | hge
  · exact le_of_lt (sum_take_lt l hpos j hj i hlt)
  · have : i = j := le_antisymm hij hge
    subst this
    exact le_rfl

theorem takeWhile_len_le (p : ℝ → Bool) :
    ∀ q : List ℝ, (q.takeWhile p).length ≤ q.length
  | [] => le_rfl
  | x :: q => by
    cases hp : p x with
    | false => simp [List.takeWhile_cons, hp]
    | true =>
      simp only [List.takeWhile_cons, hp, if_true, List.length_cons]
      exact Nat.succ_le_succ (takeWhile_len_le p q)

theorem takeWhile_getElem_true (p : ℝ → Bool) :
    ∀ (q : List ℝ) (i : ℕ) (h : i < q.length),
      i < (q.takeWhile p).length → p q[i] = true
  | x :: q, 0, h, hi => by
    cases hp : p x with
    | false => simp [List.takeWhile_cons, hp] at hi
    | true => simpa using hp
  | x :: q, i + 1, h, hi => by
    cases hp : p x with
    | false => simp [List.takeWhile_cons, hp] at hi
    | true =>
      simp only [List.takeWhile_cons, hp, if_true, List.length_cons] at hi
      have := takeWhile_getElem_true p q i (by simpa using h)
        (Nat.lt_of_succ_lt_succ hi)
      simpa using this

theorem takeWhile_getElem_false (p : ℝ → Bool) :
    ∀ (q : List ℝ) (h : (q.takeWhile p).length < q.length),
      p (q[(q.takeWhile p).length]) = false
  | x :: q, h => by
    cases hp : p x with
    | false => simpa [List.takeWhile_cons, hp] using hp
    | true =>
      simp only [List.takeWhile_cons, hp, if_true, List.length_cons] at h ⊢
      have := takeWhile_getElem_false p q (Nat.lt_of_succ_lt_succ h)
      simpa using this

theorem takeWhile_length_eq (p : ℝ → Bool) (q : List ℝ) (K : ℕ)
    (hK : K ≤ q.length)
    (h1 : ∀ (i : ℕ) (h : i < q.length), i < K → p q[i] = true)
    (h2 : ∀ (i : ℕ) (h : i < q.length), K ≤ i → p q[i] = false) :
    (q.takeWhile p).length = K := by
  rcases Nat.lt_trichotomy (q.takeWhile p).length K with hlt | heq | hgt
  · exfalso
    have hlen : (q.takeWhile p).length < q.length := lt_of_lt_of_le hlt hK
    have hfalse := takeWhile_getElem_false p q hlen
    have htrue := h1 _ hlen hlt
    simp [htrue] at hfalse
  · exact heq
  · exfalso
    have hKlen : K < q.length := lt_of_lt_of_le hgt (takeWhile_len_le p q)
    have htrue := takeWhile_getElem_true p q K hKlen hgt
    have hfalse := h2 K hKlen le_rfl
    simp [htrue] at hfalse

theorem foldl_max_props (l : List ℝ) :
    ∀ a : ℝ, a ≤ l.foldl max a ∧
      (l.foldl max a = a ∨ l.foldl max a ∈ l) ∧
      ∀ x ∈ l, x ≤ l.foldl max a := by
  induction l with
  | nil => intro a; exact ⟨le_rfl, Or.inl rfl, by simp⟩
  | cons b l ih =>
    intro a
    obtain ⟨hle, hmem, hbound⟩ := ih (max a b)
    refine ⟨le_trans (le_max_left a b) hle, ?_, ?_⟩
    · rcases hmem with heq | hmm
      · rcases max_choice a b with hab | hab
        · rw [hab] at heq
          exact Or.inl (by simp [List.foldl_cons, hab, heq])
        · rw [hab] at heq
          exact Or.inr (by simp [List.foldl_cons, hab, heq])
      · exact Or.inr (by simp [List.foldl_cons]; right; exact hmm)
    · intro x hx
      rcases List.mem_cons.1 hx with rfl | hx
      · exact le_trans (le_max_right a x) hle
      · exact hbound x hx

theorem max?_bound {l : List ℝ} {M : ℝ} (h : l.max? = some M) :
    M ∈ l ∧ ∀ x ∈ l, x ≤ M := by
  cases l with
  | nil => simp [List.max?] at h
  | cons a as =>
    simp only [List.max?] at h
    injection h with h
    obtain ⟨hle, hmem, hbound⟩ := foldl_max_props as a
    subst h
    constructor
    · rcases hmem with heq | hmm
      · rw [heq]; exact List.mem_cons_self a as
      · exact List.mem_cons_of_mem a hmm
    · intro x hx
      rcases List.mem_cons.1 hx with rfl | hx
      · exact hle
      · exact hbound x hx

theorem max?_exists {l : List ℝ} (h : l ≠ []) : ∃ M, l.max? = some M := by
  cases l with
  | nil => exact absurd rfl h
  | cons a as => exact ⟨as.foldl max a, rfl⟩

theorem filter_zip_eq_zip_take (c : ℝ) :
    ∀ (s : List Variant) (q : List ℝ), s.length = q.length →
      List.Pairwise (· ≤ ·) q →
      (s.zip q).filter (fun rc => decide (rc.2 ≤ c)) =
        (s.take ((q.takeWhile (fun x => decide (x ≤ c))).length)).zip
          (q.take ((q.takeWhile (fun x => decide (x ≤ c))).length))
  | [], [], _, _ => by simp
  | [], b :: q, hlen, _ => by simp at hlen
  | a :: s, [], hlen, _ => by simp at hlen
  | a :: s, x :: q, hlen, hpw => by
    obtain ⟨hx, hpw2⟩ := List.pairwise_cons.1 hpw
    have hlen2 : s.length = q.length := by simpa using hlen
    by_cases hxc : x ≤ c
    · have hdec : decide (x ≤ c) = true := decide_eq_true hxc
      simp only [List.zip_cons_cons, List.filter_cons, hdec, if_true,
        List.takeWhile_cons, List.length_cons, List.take_succ_cons,
        List.zip_cons_cons]
      rw [filter_zip_eq_zip_take c s q hlen2 hpw2]
    · have hdec : decide (x ≤ c) = false := decide_eq_false hxc
      have hnil : (s.zip q).filter (fun rc => decide (rc.2 ≤ c)) = [] := by
        rw [List.filter_eq_nil_iff]
        intro rc hrc
        obtain ⟨rv, ry⟩ := rc
        have hy : ry ∈ q := (List.of_mem_zip hrc).2
        have hxy : x ≤ ry := hx ry hy
        simp only [decide_eq_true_eq]
        exact fun hc => hxc (le_trans hxy hc)
      simp only [List.zip_cons_cons, List.filter_cons, hdec,
        List.takeWhile_cons, if_false]
      simpa using hnil

/-- C2: for every fine-mapping run with at least one retained variant and
a target coverage 0 < c ≤ 1, the emitted credible set is a prefix (of
length K ≥ 1) of the variants sorted by descending PIP whose cumulative
PIP is at least c, and it is minimal: removing its last member leaves
cumulative PIP strictly below c (unless the set is the full variant
list — in this model the stronger unconditional minimality holds, so the
left disjunct is always provided). -/
theorem credibleSet_is_minimal_cover (priorSd : ℚ) (rows : List RawRow)
    (c : ℝ) (hne : retained rows ≠ []) (hc0 : 0 < c) (hc1 : c ≤ 1) :
    ∃ K, 1 ≤ K ∧ K ≤ (sortByPipDesc priorSd (retained rows)).length ∧
      credibleSet priorSd c (retained rows) =
        (sortByPipDesc priorSd (retained rows)).take K ∧
      c ≤ (((sortByPipDesc priorSd (retained rows)).map
          (pipVal priorSd (retained rows))).take K).sum ∧
      ((((sortByPipDesc priorSd (retained rows)).map
          (pipVal priorSd (retained rows))).take (K - 1)).sum < c ∨
        K = (sortByPipDesc priorSd (retained rows)).length) := by
  classical
  set vs := retained rows with hvs
  set s := sortByPipDesc priorSd vs with hs
  set ps := s.map (pipVal priorSd vs) with hps
  set cums := cumsum ps with hcums
  set credPairs := (s.zip cums).filter (fun rc => decide (rc.2 ≤ c))
    with hcredPairs
  have hperm : s.Perm vs := List.perm_insertionSort _ vs
  have hlens : ps.length = s.length := List.length_map _ _
  have hlenc : cums.length = s.length := by
    rw [hcums, cumsum_length]
    exact hlens
  have hsne : s ≠ [] := by
    intro h0
    exact hne (List.Perm.eq_nil (h0 ▸ hperm.symm))
  have hn : 0 < s.length := List.length_pos.2 hsne
  have hpos : ∀ x ∈ ps, 0 < x := by
    intro x hx
    obtain ⟨v, _, rfl⟩ := List.mem_map.1 hx
    exact Real.exp_pos _
  have hsum : ps.sum = 1 := by
    rw [hps, (hperm.map (pipVal priorSd vs)).sum_eq]
    exact pipList_sum priorSd vs hne
  have hPn : (ps.take (s.length)).sum = 1 := by
    rw [← hlens, List.take_length, hsum]
  have hKex : ∃ k, c ≤ (ps.take k).sum := ⟨s.length, by rw [hPn]; exact hc1⟩
  set K := Nat.find hKex with hKdef
  have hKspec : c ≤ (ps.take K).sum := Nat.find_spec hKex
  have hKmin : ∀ j, j < K → ¬ c ≤ (ps.take j).sum :=
    fun j hj => Nat.find_min hKex hj
  have hK1 : 1 ≤ K := by
    by_contra h0
    have hK0 : K = 0 := by omega
    rw [hK0] at hKspec
    simp at hKspec
    linarith
  have hKn : K ≤ s.length :=
    Nat.find_min' hKex (by rw [hPn]; exact hc1)
  have hKm1 : (ps.take (K - 1)).sum < c :=
    lt_of_not_ge (hKmin (K - 1) (by omega))
  have hcumget : ∀ (i : ℕ) (h : i < cums.length),
      cums[i] = (ps.take (i + 1)).sum := by
    intro i h
    exact cumsum_getElem ps i h
  have hpw : List.Pairwise (· ≤ ·) cums := by
    rw [List.pairwise_iff_getElem]
    intro i j hi hj hij
    rw [hcumget i hi, hcumget j hj]
    refine sum_take_le ps hpos (i + 1) (j + 1) (by omega) ?_
    rw [hlens]
    rw [hlenc] at hj
    omega
  have hzip : credPairs =
      (s.take ((cums.takeWhile (fun x => decide (x ≤ c))).length)).zip
        (cums.take ((cums.takeWhile (fun x => decide (x ≤ c))).length)) :=
    filter_zip_eq_zip_take c s cums hlenc.symm hpw
  have hcred : credibleSet priorSd c vs =
      (if s.length = 0 then credPairs.map Prod.fst
      else
        ((credPairs.map Prod.snd).max?).elim
          (s.take (searchsortedLeft cums c + 1))
          (fun M =>
            if M < c then s.take (searchsortedLeft cums c + 1)
            else credPairs.map Prod.fst)) := rfl
  have hne0 : ¬ s.length = 0 := by omega
  refine ⟨K, hK1, hKn, ?_, hKspec, Or.inl hKm1⟩
  rcases eq_or_lt_of_le hKspec with heq | hlt
  · -- CUM_PIP hits the threshold exactly: the filtered frame is kept
    have ht : (cums.takeWhile (fun x => decide (x ≤ c))).length = K := by
      apply takeWhile_length_eq _ _ _ (by rw [hlenc]; exact hKn)
      · intro i hilen hiK
        apply decide_eq_true
        rw [hcumget i hilen, heq]
        exact sum_take_le ps hpos (i + 1) K (by omega)
          (by rw [hlens]; exact hKn)
      · intro i hilen hiK
        apply decide_eq_false
        rw [hcumget i hilen]
        intro hle
        have hstrict := sum_take_lt ps hpos (i + 1)
          (by rw [hlens]; rw [hlenc] at hilen; omega) K (by omega)
        rw [← heq] at hstrict
        linarith
    have htake_len : (s.take K).length = K := by
      rw [List.length_take]
      omega
    have hctake_len : (cums.take K).length = K := by
      rw [List.length_take]
      rw [hlenc]
      omega
    have hmapsnd : credPairs.map Prod.snd = cums.take K := by
      rw [hzip, ht]
      exact List.map_snd_zip _ _ (by rw [htake_len, hctake_len])
    have hcne : cums.take K ≠ [] := by
      intro h0
      have hlen0 := congrArg List.length h0
      rw [hctake_len] at hlen0
      simp at hlen0
      omega
    obtain ⟨M, hM⟩ := max?_exists hcne
    obtain ⟨-, hbound⟩ := max?_bound hM
    have hKlt : K - 1 < (cums.take K).length := by
      rw [hctake_len]
      omega
    have hmemc : (cums.take K)[K - 1] ∈ cums.take K :=
      List.getElem_mem hKlt
    have hvalc : (cums.take K)[K - 1] = (ps.take K).sum := by
      rw [List.getElem_take]
      have hlen3 : K - 1 < cums.length := by rw [hlenc]; omega
      rw [hcumget (K - 1) hlen3, Nat.sub_add_cancel hK1]
    have hcM : c ≤ M := by
      have hle := hbound _ hmemc
      rw [hvalc, ← heq] at hle
      exact hle
    rw [hcred, if_neg hne0, hmapsnd, hM]
    simp only [Option.elim]
    rw [if_neg (not_lt.2 hcM), hzip, ht]
    exact List.map_fst_zip _ _ (by rw [htake_len, hctake_len])
  · -- the threshold is strictly crossed: the set is extended
    have ht : (cums.takeWhile (fun x => decide (x ≤ c))).length = K - 1 := by
      apply takeWhile_length_eq _ _ _ (by rw [hlenc]; omega)
      · intro i hilen hiK
        apply decide_eq_true
        rw [hcumget i hilen]
        exact le_of_lt (not_le.1 (hKmin (i + 1) (by omega)))
      · intro i hilen hiK
        apply decide_eq_false
        rw [hcumget i hilen]
        intro hle
        have hPK : (ps.take K).sum ≤ (ps.take (i + 1)).sum :=
          sum_take_le ps hpos K (i + 1) (by omega)
            (by rw [hlens]; rw [hlenc] at hilen; omega)
        linarith
    have htlen1 : (s.take (K - 1)).length = K - 1 := by
      rw [List.length_take]
      omega
    have htlen2 : (cums.take (K - 1)).length = K - 1 := by
      rw [List.length_take]
      rw [hlenc]
      omega
    have hmapsnd : credPairs.map Prod.snd = cums.take (K - 1) := by
      rw [hzip, ht]
      exact List.map_snd_zip _ _ (by rw [htlen1, htlen2])
    have hu : searchsortedLeft cums c = K - 1 := by
      unfold searchsortedLeft
      apply takeWhile_length_eq _ _ _ (by rw [hlenc]; omega)
      · intro i hilen hiK
        apply decide_eq_true
        rw [hcumget i hilen]
        exact not_le.1 (hKmin (i + 1) (by omega))
      · intro i hilen hiK
        apply decide_eq_false
        rw [hcumget i hilen]
        intro hlt2
        have hPK : (ps.take K).sum ≤ (ps.take (i + 1)).sum :=
          sum_take_le ps hpos K (i + 1) (by omega)
            (by rw [hlens]; rw [hlenc] at hilen; omega)
        linarith
    have hKfix : K - 1 + 1 = K := Nat.sub_add_cancel hK1
    rcases Nat.eq_or_lt_of_le hK1 with hK1eq | hK2
    · -- K = 1: the filtered frame is empty and `max?` is `none`
      have hempty : credPairs.map Prod.snd = [] := by
        rw [hmapsnd, ← hK1eq]
        simp
      rw [hcred, if_neg hne0, hempty]
      simp only [List.max?_nil, Option.elim]
      rw [hu, hKfix]
    · -- K ≥ 2: the filtered frame is nonempty with maximum below c
      have hcne : cums.take (K - 1) ≠ [] := by
        intro h0
        have hlen0 := congrArg List.length h0
        rw [htlen2] at hlen0
        simp at hlen0
        omega
      obtain ⟨M, hM⟩ := max?_exists hcne
      obtain ⟨hMmem, -⟩ := max?_bound hM
      obtain ⟨i, hi, hMi⟩ := List.mem_iff_getElem.1 hMmem
      have hi2 : i < K - 1 := by
        rw [htlen2] at hi
        exact hi
      have hilen : i < cums.length := by
        rw [hlenc]
        omega
      rw [List.getElem_take] at hMi
      rw [hcumget i hilen] at hMi
      have hMlt : M < c := by
        rw [← hMi]
        exact not_le.1 (hKmin (i + 1) (by omega))
      rw [hcred, if_neg hne0, hmapsnd, hM]
      simp only [Option.elim]
      rw [if_pos hMlt, hu, hKfix]

/-- C2 witness: on a one-variant concrete input with coverage 0.95 the
conclusion holds (hypotheses: nonempty retained set and 0 < 0.95 ≤ 1). -/
theorem credibleSet_is_minimal_cover_witness :
    retained [⟨some "rs3", some 1, some 10, some "G", "ADD", some 30,
        some 1, some 1, some (1/10)⟩] ≠ [] ∧
      ∃ K, 1 ≤ K ∧
        K ≤ (sortByPipDesc 2 (retained [⟨some "rs3", some 1, some 10,
          some "G", "ADD", some 30, some 1, some 1, some (1/10)⟩])).length ∧
        credibleSet 2 (95/100) (retained [⟨some "rs3", some 1, some 10,
            some "G", "ADD", some 30, some 1, some 1, some (1/10)⟩]) =
          (sortByPipDesc 2 (retained [⟨some "rs3", some 1, some 10,
            some "G", "ADD", some 30, some 1, some 1,
            some (1/10)⟩])).take K ∧
        (95/100 : ℝ) ≤ (((sortByPipDesc 2 (retained [⟨some "rs3", some 1,
            some 10, some "G", "ADD", some 30, some 1, some 1,
            some (1/10)⟩])).map (pipVal 2 (retained [⟨some "rs3", some 1,
            some 10, some "G", "ADD", some 30, some 1, some 1,
            some (1/10)⟩]))).take K).sum ∧
        ((((sortByPipDesc 2 (retained [⟨some "rs3", some 1, some 10,
            some "G", "ADD", some 30, some 1, some 1,
            some (1/10)⟩])).map (pipVal 2 (retained [⟨some "rs3", some 1,
            some 10, some "G", "ADD", some 30, some 1, some 1,
            some (1/10)⟩]))).take (K - 1)).sum < 95/100 ∨
          K = (sortByPipDesc 2 (retained [⟨some "rs3", some 1, some 10,
            some "G", "ADD", some 30, some 1, some 1,
            some (1/10)⟩])).length) := by
  have hne : retained [(⟨some "rs3", some 1, some 10, some "G", "ADD",
      some 30, some 1, some 1, some (1/10)⟩ : RawRow)] ≠ [] := by
    norm_num [retained, retainRow, List.filter]
    simp
  exact ⟨hne, credibleSet_is_minimal_cover 2 _ (95/100) hne
    (by norm_num) (by norm_num)⟩


/-! ## Significance selector

Embeds the significant-table construction of
src/code/collect_sig_genes_transcis_v2.py (lines 161-163) and of
src/code/collect_sig_genes_trans.py (lines 127-128): one row of the
aggregated collection with its attached q-value. -/

/-- A row of the aggregated collection after q-value attachment, with the
fields the significance selector reads: phenotype name, variant id, raw
p-value and BH q-value. -/
structure QRow where
  pheno : String
  snp : String
  p : ℚ
  q : ℚ
deriving DecidableEq

/-- The two-threshold filter shared by both scripts:
`(P <= p_raw) & (q_bh <= q_fdr)`. -/
def sigPred (P0 Q0 : ℚ) (r : QRow) : Bool :=
  decide (r.p ≤ P0 ∧ r.q ≤ Q0)

/-- collect_sig_genes_trans.py lines 127-128: the significant table is
the filtered frame, written in aggregation (input) order — this script
does not re-sort it. -/
def sigTableV1 (P0 Q0 : ℚ) (rows : List QRow) : List QRow :=
  rows.filter (sigPred P0 Q0)

/-- The sort key of
`sig.sort_values(["q_bh", "P", "pheno_gene", "SNP"], kind="mergesort")`
(collect_sig_genes_transcis_v2.py line 162): lexicographic on
(q, p, phenotype name, variant id). -/
def sigKey (r : QRow) : ℚ ×ₗ (ℚ ×ₗ (String ×ₗ String)) :=
  toLex (r.q, toLex (r.p, toLex (r.pheno, r.snp)))

/-- Row order of the v2 significant table: ascending q, ties by ascending
p, then phenotype name, then variant id. -/
def qpLe (a b : QRow) : Prop := sigKey a ≤ sigKey b

instance : DecidableRel qpLe :=
  fun a b => inferInstanceAs (Decidable (sigKey a ≤ sigKey b))

instance : IsTotal QRow qpLe := ⟨fun a b => le_total (sigKey a) (sigKey b)⟩

instance : IsTrans QRow qpLe := ⟨fun _ _ _ h1 h2 => le_trans h1 h2⟩

/-- collect_sig_genes_transcis_v2.py lines 161-162: filter, then stable
sort by (q, p, phenotype, variant id). -/
def sigTableV2 (P0 Q0 : ℚ) (rows : List QRow) : List QRow :=
  List.insertionSort qpLe (rows.filter (sigPred P0 Q0))

/-! ### Claim C7: the significant table -/

/-- C7 counterexample: in collect_sig_genes_trans.py the significant
table is NOT ordered by ascending q — on a two-row input whose q-values
arrive in descending order, both rows pass the thresholds
(P0 = 5e-6, Q0 = 0.1) and the emitted table keeps the input order
q = [1/20, 1/100], which violates the claimed (q, p, pheno, snp)
ordering. -/
theorem sig_table_order_counterexample :
    ¬ List.Sorted qpLe (sigTableV1 (1/200000) (1/10)
      [⟨"G1", "S1", 1/10000000, 1/20⟩, ⟨"G2", "S2", 1/10000000, 1/100⟩]) := by
  intro hsort
  have heval : sigTableV1 (1/200000) (1/10)
      [⟨"G1", "S1", 1/10000000, 1/20⟩, ⟨"G2", "S2", 1/10000000, 1/100⟩] =
      [⟨"G1", "S1", 1/10000000, 1/20⟩, ⟨"G2", "S2", 1/10000000, 1/100⟩] := by
    norm_num [sigTableV1, sigPred, List.filter]
  rw [heval] at hsort
  have hrel : qpLe ⟨"G1", "S1", 1/10000000, 1/20⟩
      ⟨"G2", "S2", 1/10000000, 1/100⟩ :=
    List.rel_of_sorted_cons hsort _ (List.mem_singleton.2 rfl)
  unfold qpLe sigKey at hrel
  rcases (Prod.Lex.le_iff _ _).1 hrel with hlt | ⟨heq2, -⟩
  · norm_num at hlt
  · norm_num at heq2

/-- C7 (amended): in both scripts the significant table contains exactly
the rows with p ≤ P0 and q ≤ Q0; in collect_sig_genes_transcis_v2.py it
is additionally sorted by ascending q, then ascending p, then phenotype
name, then variant identifier (so the v2 output is deterministic for
identical input); in collect_sig_genes_trans.py the table instead
retains the aggregation input order (it is the filtered sublist of the
input). -/
theorem sig_table_amended (P0 Q0 : ℚ) (rows : List QRow) :
    (∀ r, r ∈ sigTableV1 P0 Q0 rows ↔ r ∈ rows ∧ (r.p ≤ P0 ∧ r.q ≤ Q0)) ∧
      (sigTableV1 P0 Q0 rows).Sublist rows ∧
      (sigTableV2 P0 Q0 rows).Perm (rows.filter (sigPred P0 Q0)) ∧
      List.Sorted qpLe (sigTableV2 P0 Q0 rows) ∧
      (∀ r, r ∈ sigTableV2 P0 Q0 rows ↔ r ∈ rows ∧ (r.p ≤ P0 ∧ r.q ≤ Q0)) := by
  refine ⟨?_, ?_, ?_, ?_, ?_⟩
  · intro r
    rw [sigTableV1, List.mem_filter]
    simp [sigPred]
  · exact List.filter_sublist rows
  · exact List.perm_insertionSort _ _
  · exact List.sorted_insertionSort _ _
  · intro r
    rw [sigTableV2, (List.perm_insertionSort qpLe _).mem_iff, List.mem_filter]
    simp [sigPred]

/-- C7 witness: the amended statement instantiated at a concrete
two-row input. -/
theorem sig_table_amended_witness :
    List.Sorted qpLe (sigTableV2 (1/200000) (1/10)
        [⟨"G1", "S1", 1/10000000, 1/20⟩, ⟨"G2", "S2", 1/10000000, 1/100⟩]) ∧
      (sigTableV2 (1/200000) (1/10)
          [⟨"G1", "S1", 1/10000000, 1/20⟩,
            ⟨"G2", "S2", 1/10000000, 1/100⟩]).Perm
        (List.filter (sigPred (1/200000) (1/10))
          [⟨"G1", "S1", 1/10000000, 1/20⟩,
            ⟨"G2", "S2", 1/10000000, 1/100⟩]) :=
  ⟨(sig_table_amended (1/200000) (1/10)
      [⟨"G1", "S1", 1/10000000, 1/20⟩,
        ⟨"G2", "S2", 1/10000000, 1/100⟩]).2.2.2.1,
    (sig_table_amended (1/200000) (1/10)
      [⟨"G1", "S1", 1/10000000, 1/20⟩,
        ⟨"G2", "S2", 1/10000000, 1/100⟩]).2.2.1⟩

/-! ## Aggregation abort logic

Embeds the main loop of src/code/collect_sig_genes_trans.py
(lines 58-117). -/

/-- One parsed line of an association file as the collector sees it:
TEST label, numeric-coerced p-value (`pd.to_numeric(errors="coerce")`,
line 86; `none` = NaN), numeric-coerced variant chromosome (line 97,
modelled post-coercion), the PHENO label when the `--all-pheno` column is
present (line 76 substitutes the constant "PHENO" otherwise), and the
pass-through string columns. -/
structure CollectRaw where
  chr : Option ℤ
  snp : Option String
  bp : Option String
  a1 : Option String
  test : String
  nmiss : Option String
  beta : Option String
  stat : Option String
  p : Option ℚ
  pheno : Option String
deriving DecidableEq

/-- cis/trans label (lines 101-107): "NA" when either chromosome is
unresolved, otherwise "cis" iff the two chromosomes are equal. -/
def cisTransLabel (phenoChr snpChr : Option ℤ) : String :=
  match phenoChr, snpChr with
  | some pc, some sc => if pc = sc then "cis" else "trans"
  | _, _ => "NA"

/-- One aggregated output row (line 110's keep_cols). -/
structure CollectRow where
  phenoGene : String
  phenoChr : Option ℤ
  cisTrans : String
  snpChr : Option ℤ
  snp : Option String
  bp : Option String
  a1 : Option String
  beta : Option String
  stat : Option String
  p : ℚ
  nmiss : Option String
deriving DecidableEq

/-- What `read_assoc_linear` (lines 33-42) found: an empty, unparsable or
empty-frame file yields nothing; otherwise the parsed rows. -/
inductive AssocFile
  | unreadable
  | table (rows : List CollectRaw)
deriving DecidableEq

/-- One candidate file: the chromosome parsed from its name
(`parse_chr_from_path`, lines 29-31, modelled by its outcome) and the
parse result. -/
structure CollectFile where
  phenoChr : Option ℤ
  data : AssocFile
deriving DecidableEq

/-- Lines 63-114: per-file processing.  Unreadable files contribute
nothing; otherwise keep `TEST == "ADD"` rows (skip the file when none
remain, lines 80-83), keep rows with a numeric P (skip when none remain,
lines 86-89), and assemble the output columns (lines 91-114). -/
def usableRows (f : CollectFile) : List CollectRow :=
  match f.data with
  | .unreadable => []
  | .table rows =>
    let add := rows.filter (fun r => r.test = "ADD")
    if add = [] then []
    else
      add.filterMap (fun r =>
        r.p.map (fun p =>
          { phenoGene := r.pheno.getD "PHENO"
            phenoChr := f.phenoChr
            cisTrans := cisTransLabel f.phenoChr r.chr
            snpChr := r.chr
            snp := r.snp
            bp := r.bp
            a1 := r.a1
            beta := r.beta
            stat := r.stat
            p := p
            nmiss := r.nmiss }))

/-- Lines 58-121: the run aborts when no files match the pattern
(lines 59-60) or when no file contributes any usable row (lines
116-117); otherwise the aggregated table is produced and BH q-values are
attached across ALL collected rows at once (line 121). -/
def collectRun (files : List CollectFile) :
    Except String (List (CollectRow × Option ℚ)) :=
  if files = [] then .error "no assoc files"
  else
    let rows := files.flatMap usableRows
    if rows = [] then .error "no valid rows parsed"
    else .ok (rows.zip (bh_fdr (rows.map (fun r => some r.p))))

/-! ### Claim C9: abort iff no usable row -/

/-- C9: the aggregation run aborts with a fatal error iff no input file
yields any usable row (either no files match, or after per-file parsing
and filtering zero rows remain across all files); whenever at least one
usable row exists, individual unreadable/empty files contribute nothing
(they are skipped) and the run still produces output. -/
theorem collect_abort_iff (files : List CollectFile) :
    ((∃ e, collectRun files = .error e) ↔ ∀ f ∈ files, usableRows f = []) ∧
      ((∃ out, collectRun files = .ok out) ↔
        ∃ f ∈ files, usableRows f ≠ []) ∧
      ∀ pc, usableRows ⟨pc, .unreadable⟩ = [] := by
  have hkey : (files.flatMap usableRows = []) ↔
      ∀ f ∈ files, usableRows f = [] := List.flatMap_eq_nil_iff
  refine ⟨⟨?_, ?_⟩, ⟨?_, ?_⟩, fun pc => rfl⟩
  · rintro ⟨e, he⟩
    simp only [collectRun] at he
    intro f hf
    by_cases h1 : files = []
    · rw [h1] at hf
      simp at hf
    · rw [if_neg h1] at he
      by_cases h2 : files.flatMap usableRows = []
      · exact hkey.1 h2 f hf
      · rw [if_neg h2] at he
        simp at he
  · intro hall
    simp only [collectRun]
    by_cases h1 : files = []
    · rw [if_pos h1]
      exact ⟨_, rfl⟩
    · rw [if_neg h1, if_pos (hkey.2 hall)]
      exact ⟨_, rfl⟩
  · rintro ⟨out, hout⟩
    simp only [collectRun] at hout
    by_contra hnone
    push_neg at hnone
    have hnil : files.flatMap usableRows = [] := hkey.2 hnone
    by_cases h1 : files = []
    · rw [if_pos h1] at hout
      simp at hout
    · rw [if_neg h1, if_pos hnil] at hout
      simp at hout
  · rintro ⟨f, hf, hne⟩
    simp only [collectRun]
    have h1 : files ≠ [] := by
      rintro rfl
      simp at hf
    rw [if_neg h1, if_neg]
    · exact ⟨_, rfl⟩
    · intro h0
      exact hne (hkey.1 h0 f hf)

/-- C9 witness: the empty file list aborts, and one readable file with
one usable row yields output. -/
theorem collect_abort_iff_witness :
    (∃ e, collectRun [] = Except.error e) ∧
      ∃ out, collectRun [⟨some 1, AssocFile.table [⟨some 1, some "S1",
          some "123", some "A", "ADD", some "10", some "0.5", some "2",
          some (1/1000), none⟩]⟩] = Except.ok out := by
  constructor
  · exact (collect_abort_iff []).1.2 (by simp)
  · refine (collect_abort_iff _).2.1.2
      ⟨⟨some 1, AssocFile.table [⟨some 1, some "S1", some "123", some "A",
        "ADD", some "10", some "0.5", some "2", some (1/1000), none⟩]⟩,
        by simp, ?_⟩
    simp [usableRows, List.filter]

end GwasCore
